import Mathlib

/-!
Shallow embedding of the streaming render pipeline of the Open-CortexArray
repository: the time-domain ring buffer and wavefront renderer
(TimeDomainCanvas.vue and its event-driven iteration), the frequency-domain
spectrum renderer (FrequencyDomainCanvas.vue) and the FFT worker
(public/fft-worker.js).

Sample values and screen coordinates are embedded as rationals.  JavaScript
typed arrays become fixed-length lists of rationals; an out-of-range write to
a typed array is a silent no-op in JavaScript, which List.set matches exactly.
A possibly-null JavaScript value is embedded as an Option.
-/

/-! List helper lemmas used throughout the development. -/

/-- Reading back an in-range write to a list. -/
theorem getD_set_self (l : List ℚ) (i : ℕ) (v : ℚ) (h : i < l.length) :
    (l.set i v).getD i 0 = v := by
  rw [List.getD_eq_getElem _ _ (by simpa using h), List.getElem_set]
  simp

/-- Writing one position of a list leaves every other position unchanged. -/
theorem getD_set_ne (l : List ℚ) (i j : ℕ) (v : ℚ) (h : i ≠ j) :
    (l.set i v).getD j 0 = l.getD j 0 := by
  rw [List.getD_eq_getElem?_getD, List.getD_eq_getElem?_getD, List.getElem?_set]
  simp [h]

/-- Reading the appended element of a concatenation. -/
theorem getD_append_len (l : List ℚ) (v : ℚ) (j : ℕ) (h : j = l.length) :
    (l ++ [v]).getD j 0 = v := by
  rw [List.getD_eq_getElem _ _ (by simp [h])]
  exact List.getElem_concat_length l v j h _

/-- Reading a concatenation inside the left part. -/
theorem getD_append_lt (l r : List ℚ) (j : ℕ) (h : j < l.length) :
    (l ++ r).getD j 0 = l.getD j 0 :=
  List.getD_append l r 0 j h

/-! Per-lane write loop.

Both the ring buffer's addBatch (TimeDomainCanvas.vue) and the wavefront's
updateSingleSample (the event-driven iteration of TimeDomainCanvas.vue) run a
loop of the shape

  for (let ch = 0; ch < bound; ch++) lanes[ch][pos] = value(ch)

whose iterations touch pairwise distinct lanes.  setLanesAux is that loop:
lanes with index below the bound k receive the value val ch at position pos,
all other lanes are untouched; the parameter c is the index of the first lane
of the remaining list. -/

def setLanesAux (val : ℕ → ℚ) (pos k : ℕ) : ℕ → List (List ℚ) → List (List ℚ)
  | _, [] => []
  | c, lane :: rest =>
      (if c < k then lane.set pos (val c) else lane) :: setLanesAux val pos k (c + 1) rest

theorem setLanesAux_length (val : ℕ → ℚ) (pos k : ℕ) (c : ℕ) (bufs : List (List ℚ)) :
    (setLanesAux val pos k c bufs).length = bufs.length := by
  induction bufs generalizing c with
  | nil => rfl
  | cons lane rest ih => simp [setLanesAux, ih]

theorem setLanesAux_getD (val : ℕ → ℚ) (pos k : ℕ) (bufs : List (List ℚ)) (c j : ℕ) :
    (setLanesAux val pos k c bufs).getD j [] =
      if j < bufs.length then
        (if c + j < k then (bufs.getD j []).set pos (val (c + j)) else bufs.getD j [])
      else [] := by
  induction bufs generalizing c j with
  | nil => simp [setLanesAux, List.getD_eq_getElem?_getD]
  | cons lane rest ih =>
    cases j with
    | zero => simp [setLanesAux]
    | succ j2 =>
      have harith : c + 1 + j2 = c + (j2 + 1) := by omega
      simp only [setLanesAux, List.getD_cons_succ, List.length_cons]
      rw [ih, harith]
      simp [Nat.succ_lt_succ_iff]

/-! Ring buffer (class OptimizedRingBuffer of TimeDomainCanvas.vue).

The class keeps one Float32Array lane per channel, a shared write cursor
head, a fixed capacity and a channel count.  addBatch iterates over the
incoming samples; a falsy sample or one without a channels field is skipped,
otherwise every lane ch below min(channelCount, sample.channels.length)
receives sample.channels[ch] (a missing or falsy element reads as 0) at
position head, and head advances by one modulo capacity. -/

structure OptimizedRingBuffer where
  buffers : List (List ℚ)
  head : ℕ
  capacity : ℕ
  channelCount : ℕ

/-- Constructor of OptimizedRingBuffer: channelCount zero-filled lanes of the
given capacity, cursor at 0. -/
def OptimizedRingBuffer.init (channels capacity : ℕ) : OptimizedRingBuffer :=
  { buffers := List.replicate channels (List.replicate capacity 0)
    head := 0
    capacity := capacity
    channelCount := channels }

/-- Body of the addBatch loop for one incoming sample.  none embeds a falsy
sample or a sample without a channels field, which addBatch skips. -/
def OptimizedRingBuffer.writeSample (rb : OptimizedRingBuffer) (sample : Option (List ℚ)) :
    OptimizedRingBuffer :=
  match sample with
  | none => rb
  | some chans =>
      { rb with
        buffers :=
          setLanesAux (fun ch => chans.getD ch 0) rb.head
            (min rb.channelCount chans.length) 0 rb.buffers
        head := (rb.head + 1) % rb.capacity }

/-- addBatch of OptimizedRingBuffer: fold writeSample over the batch. -/
def OptimizedRingBuffer.addBatch (rb : OptimizedRingBuffer)
    (samples : List (Option (List ℚ))) : OptimizedRingBuffer :=
  samples.foldl OptimizedRingBuffer.writeSample rb

/-- getLatestBatch of OptimizedRingBuffer: for an out-of-range channel a fresh
zero array with start index 0, otherwise the whole lane together with the
start index Math.max(0, head - count), which is truncated subtraction on ℕ. -/
def OptimizedRingBuffer.getLatestBatch (rb : OptimizedRingBuffer) (channel count : ℕ) :
    List ℚ × ℕ :=
  if rb.buffers.length ≤ channel then (List.replicate count 0, 0)
  else (rb.buffers.getD channel [], rb.head - count)

/-- getAvailableCount of OptimizedRingBuffer. -/
def OptimizedRingBuffer.getAvailableCount (rb : OptimizedRingBuffer) : ℕ :=
  min rb.head rb.capacity

/-- Window described by getLatestBatch: the count values of the returned data
array starting at the returned start index.  This is the reading of the
claim that the pair (data, startIndex) denotes the count most recent values. -/
def windowValues (rb : OptimizedRingBuffer) (channel count : ℕ) : List ℚ :=
  (List.range count).map
    (fun i => (rb.getLatestBatch channel count).1.getD
      ((rb.getLatestBatch channel count).2 + i) 0)

/-- Most recent n entries of a value sequence, oldest first. -/
def lastN (n : ℕ) (xs : List ℚ) : List ℚ := xs.drop (xs.length - n)

/-- Number of samples of a batch that addBatch accepts (truthy, with a
channels field). -/
def countAccepted (samples : List (Option (List ℚ))) : ℕ :=
  samples.countP (fun s => s.isSome)

/-- Scenario: a fresh ring buffer after ingesting a sequence of valid samples
through addBatch calls (one call with the whole list equals any split into
successive calls, since addBatch is a fold). -/
def ingest (chCount cap : ℕ) (samples : List (List ℚ)) : OptimizedRingBuffer :=
  (OptimizedRingBuffer.init chCount cap).addBatch (samples.map some)

theorem ingest_append (chCount cap : ℕ) (samples : List (List ℚ)) (s : List ℚ) :
    ingest chCount cap (samples ++ [s])
      = (ingest chCount cap samples).writeSample (some s) := by
  simp [ingest, OptimizedRingBuffer.addBatch, List.foldl_append]

/-- Reading one lane of a replicated lane list. -/
theorem getD_replicate_lane (n : ℕ) (x : List ℚ) (ch : ℕ) (h : ch < n) :
    (List.replicate n x).getD ch [] = x := by
  rw [List.getD_eq_getElem _ _ (by simpa using h)]
  simp

/-- Lane invariant of the ring buffer: after ingesting full samples into a
fresh buffer the cursor equals the total write count modulo the capacity,
lane lengths are fixed, and every position below the cursor holds the value
of the most recent write that landed on it. -/
theorem ingest_inv (chCount cap ch : ℕ) (hcap : 0 < cap) (hch : ch < chCount)
    (samples : List (List ℚ)) (hlen : ∀ s ∈ samples, s.length = chCount) :
    (ingest chCount cap samples).capacity = cap ∧
    (ingest chCount cap samples).channelCount = chCount ∧
    (ingest chCount cap samples).buffers.length = chCount ∧
    (ingest chCount cap samples).head = samples.length % cap ∧
    ((ingest chCount cap samples).buffers.getD ch []).length = cap ∧
    ∀ p < (ingest chCount cap samples).head,
      ((ingest chCount cap samples).buffers.getD ch []).getD p 0
        = (samples.map (fun s => s.getD ch 0)).getD
            (samples.length - (ingest chCount cap samples).head + p) 0 := by
  induction samples using List.reverseRecOn with
  | nil =>
    refine ⟨rfl, rfl, ?_, ?_, ?_, ?_⟩
    · simp [ingest, OptimizedRingBuffer.addBatch, OptimizedRingBuffer.init]
    · simp [ingest, OptimizedRingBuffer.addBatch, OptimizedRingBuffer.init]
    · simp only [ingest, OptimizedRingBuffer.addBatch, List.map_nil, List.foldl_nil,
        OptimizedRingBuffer.init]
      rw [getD_replicate_lane _ _ _ hch, List.length_replicate]
    · intro p hp
      simp [ingest, OptimizedRingBuffer.addBatch, OptimizedRingBuffer.init] at hp
  | append_singleton samples s ih =>
    have hlen1 : ∀ x ∈ samples, x.length = chCount := by
      intro x hx; exact hlen x (List.mem_append_left _ hx)
    have hslen : s.length = chCount := hlen s (List.mem_append_right _ (List.mem_singleton.mpr rfl))
    obtain ⟨hcapEq, hccEq, hblen, hheadEq, hlaneLen, hvals⟩ := ih hlen1
    have hhd_lt : (ingest chCount cap samples).head < cap := by
      rw [hheadEq]; exact Nat.mod_lt _ hcap
    have hhd_le : (ingest chCount cap samples).head ≤ samples.length := by
      rw [hheadEq]; exact Nat.mod_le _ _
    have hk : min (ingest chCount cap samples).channelCount s.length = chCount := by
      rw [hccEq, hslen, min_self]
    have hlane :
        ((ingest chCount cap (samples ++ [s])).buffers.getD ch [])
          = ((ingest chCount cap samples).buffers.getD ch []).set
              (ingest chCount cap samples).head (s.getD ch 0) := by
      rw [ingest_append]
      simp only [OptimizedRingBuffer.writeSample]
      rw [setLanesAux_getD, hk]
      simp [hblen, hch]
    have hhead2 : (ingest chCount cap (samples ++ [s])).head
        = (samples.length + 1) % cap := by
      rw [ingest_append]
      simp only [OptimizedRingBuffer.writeSample]
      rw [hcapEq, hheadEq, Nat.mod_add_mod]
    refine ⟨?_, ?_, ?_, ?_, ?_, ?_⟩
    · rw [ingest_append]; simp only [OptimizedRingBuffer.writeSample]; exact hcapEq
    · rw [ingest_append]; simp only [OptimizedRingBuffer.writeSample]; exact hccEq
    · rw [ingest_append]; simp only [OptimizedRingBuffer.writeSample]
      rw [setLanesAux_length]; exact hblen
    · rw [hhead2]; simp
    · rw [hlane, List.length_set]; exact hlaneLen
    · intro p hp
      rw [hhead2] at hp
      rcases Nat.lt_or_ge ((ingest chCount cap samples).head + 1) cap with hcase | hcase
      · have hstep : (samples.length + 1) % cap = (ingest chCount cap samples).head + 1 := by
          rw [← Nat.mod_add_mod, ← hheadEq]
          exact Nat.mod_eq_of_lt hcase
        rw [hstep] at hp
        rw [hlane, hhead2, hstep]
        rcases Nat.lt_or_ge p (ingest chCount cap samples).head with hplt | hpge
        · rw [getD_set_ne _ _ _ _ (by omega)]
          rw [hvals p hplt]
          rw [List.map_append]
          have hidx : samples.length + 1 - ((ingest chCount cap samples).head + 1) + p
              = samples.length - (ingest chCount cap samples).head + p := by omega
          simp only [List.length_append, List.length_singleton]
          rw [hidx, getD_append_lt]
          rw [List.length_map]; omega
        · have hpe : p = (ingest chCount cap samples).head := by omega
          subst hpe
          rw [getD_set_self _ _ _ (by rw [hlaneLen]; exact hhd_lt)]
          have hidx : samples.length + 1 - ((ingest chCount cap samples).head + 1)
              + (ingest chCount cap samples).head = samples.length := by omega
          simp only [List.map_append, List.map_cons, List.map_nil, List.length_append,
            List.length_singleton]
          rw [hidx]
          exact (getD_append_len _ _ _ (by rw [List.length_map])).symm
      · have hzero : (samples.length + 1) % cap = 0 := by
          have hcapeq2 : (ingest chCount cap samples).head + 1 = cap := by omega
          rw [← Nat.mod_add_mod, ← hheadEq, hcapeq2, Nat.mod_self]
        rw [hzero] at hp
        exact absurd hp (Nat.not_lt_zero p)

/-- C1, amended form: the window described by getLatestBatch consists of the
n most recently written values whenever n does not exceed the current cursor
position, that is, whenever the most recent n writes did not cross the wrap
boundary.  The cursor position after ingesting the samples equals the total
sample count modulo the capacity. -/
theorem readWindow_most_recent (chCount cap ch n : ℕ) (samples : List (List ℚ))
    (hcap : 0 < cap) (hch : ch < chCount)
    (hlen : ∀ s ∈ samples, s.length = chCount)
    (hn : n ≤ samples.length % cap) :
    windowValues (ingest chCount cap samples) ch n
      = lastN n (samples.map (fun s => s.getD ch 0)) := by
  obtain ⟨hcapEq, hccEq, hblen, hheadEq, hlaneLen, hvals⟩ :=
    ingest_inv chCount cap ch hcap hch samples hlen
  have hhd_le : (ingest chCount cap samples).head ≤ samples.length := by
    rw [hheadEq]; exact Nat.mod_le _ _
  have hn2 : n ≤ (ingest chCount cap samples).head := by rw [hheadEq]; exact hn
  have hnT : n ≤ samples.length := le_trans hn2 hhd_le
  have hch2 : ¬ (ingest chCount cap samples).buffers.length ≤ ch := by rw [hblen]; omega
  have hglb : (ingest chCount cap samples).getLatestBatch ch n
      = ((ingest chCount cap samples).buffers.getD ch [],
         (ingest chCount cap samples).head - n) := by
    simp [OptimizedRingBuffer.getLatestBatch, hch2]
  apply List.ext_getElem
  · simp only [windowValues, lastN, List.length_map, List.length_range, List.length_drop]
    omega
  · intro i h1 h2
    have hi : i < n := by simpa [windowValues] using h1
    have hilt : (ingest chCount cap samples).head - n + i
        < (ingest chCount cap samples).head := by omega
    have hmain := hvals _ hilt
    have hidx2 : samples.length - (ingest chCount cap samples).head
        + ((ingest chCount cap samples).head - n + i) = samples.length - n + i := by omega
    simp only [windowValues, hglb, List.getElem_map, List.getElem_range, lastN,
      List.getElem_drop, List.length_map]
    rw [hmain, hidx2]
    have hb : samples.length - n + i < (List.map (fun s => s.getD ch 0) samples).length := by
      rw [List.length_map]; omega
    rw [List.getD_eq_getElem _ _ hb, List.getElem_map]

/-- Concrete run used against C1 as stated: capacity 4, one channel, five
written samples, so the write cursor has wrapped once and sits at 1. -/
def cexSamples : List (List ℚ) := [[1], [2], [3], [4], [5]]

/-- C1, counterexample to the claim as stated: after five writes into a
capacity-4 buffer, the window of the returned data array at the returned
start index Math.max(0, head - 2) = 0 is [5, 2], not the two most recently
written values [4, 5]; the clamped start index never wraps. -/
theorem readWindow_wrap_cex :
    windowValues (ingest 1 4 cexSamples) 0 2
      ≠ lastN 2 (cexSamples.map (fun s => s.getD 0 0)) := by decide

/-- C1, witness: with the cursor at 5 % 4 = 1 the single most recent value is
returned exactly. -/
theorem readWindow_most_recent_witness :
    windowValues (ingest 1 4 cexSamples) 0 1
      = lastN 1 (cexSamples.map (fun s => s.getD 0 0)) :=
  readWindow_most_recent 1 4 0 1 cexSamples (by decide) (by decide) (by decide) (by decide)

/-! Supporting lemmas about single writes, used for C7. -/

theorem writeSample_none (rb : OptimizedRingBuffer) : rb.writeSample none = rb := rfl

theorem writeSample_head (rb : OptimizedRingBuffer) (chans : List ℚ) :
    (rb.writeSample (some chans)).head = (rb.head + 1) % rb.capacity := rfl

theorem writeSample_capacity (rb : OptimizedRingBuffer) (s : Option (List ℚ)) :
    (rb.writeSample s).capacity = rb.capacity := by
  cases s <;> rfl

theorem writeSample_buffers_length (rb : OptimizedRingBuffer) (s : Option (List ℚ)) :
    (rb.writeSample s).buffers.length = rb.buffers.length := by
  cases s with
  | none => rfl
  | some chans =>
    simp only [OptimizedRingBuffer.writeSample]
    exact setLanesAux_length _ _ _ _ _

theorem writeSample_lane_length (rb : OptimizedRingBuffer) (s : Option (List ℚ)) (j : ℕ) :
    ((rb.writeSample s).buffers.getD j []).length = (rb.buffers.getD j []).length := by
  cases s with
  | none => rfl
  | some chans =>
    simp only [OptimizedRingBuffer.writeSample]
    rw [setLanesAux_getD]
    split
    · split
      · rw [List.length_set]
      · rfl
    · next hout =>
      rw [List.getD_eq_default _ _ (Nat.le_of_not_lt hout)]

theorem writeSample_lane_untouched (rb : OptimizedRingBuffer) (chans : List ℚ) (j : ℕ)
    (h : min rb.channelCount chans.length ≤ j) :
    (rb.writeSample (some chans)).buffers.getD j [] = rb.buffers.getD j [] := by
  simp only [OptimizedRingBuffer.writeSample]
  rw [setLanesAux_getD]
  split
  · split
    · next hcond => exact absurd hcond (by omega)
    · rfl
  · next hout =>
    rw [List.getD_eq_default _ _ (Nat.le_of_not_lt hout)]

theorem countAccepted_cons_none (rest : List (Option (List ℚ))) :
    countAccepted (none :: rest) = countAccepted rest := by
  simp [countAccepted, List.countP_cons]

theorem countAccepted_cons_some (chans : List ℚ) (rest : List (Option (List ℚ))) :
    countAccepted (some chans :: rest) = countAccepted rest + 1 := by
  simp [countAccepted, List.countP_cons]

theorem addBatch_head (samples : List (Option (List ℚ))) (rb : OptimizedRingBuffer)
    (hhead : rb.head < rb.capacity) :
    (rb.addBatch samples).head = (rb.head + countAccepted samples) % rb.capacity := by
  induction samples generalizing rb with
  | nil =>
    simp only [OptimizedRingBuffer.addBatch, List.foldl_nil, countAccepted, List.countP_nil,
      Nat.add_zero]
    exact (Nat.mod_eq_of_lt hhead).symm
  | cons s rest ih =>
    have hcap : 0 < rb.capacity := Nat.pos_of_ne_zero (by omega)
    cases s with
    | none =>
      rw [OptimizedRingBuffer.addBatch, List.foldl_cons, writeSample_none,
        countAccepted_cons_none]
      exact ih rb hhead
    | some chans =>
      rw [OptimizedRingBuffer.addBatch, List.foldl_cons]
      have hlt : (rb.writeSample (some chans)).head < (rb.writeSample (some chans)).capacity := by
        rw [writeSample_head, writeSample_capacity]
        exact Nat.mod_lt _ hcap
      have hstep := ih (rb.writeSample (some chans)) hlt
      rw [OptimizedRingBuffer.addBatch] at hstep
      rw [hstep, writeSample_head, writeSample_capacity, countAccepted_cons_some,
        Nat.mod_add_mod]
      congr 1
      omega

theorem addBatch_buffers_length (samples : List (Option (List ℚ))) (rb : OptimizedRingBuffer) :
    (rb.addBatch samples).buffers.length = rb.buffers.length := by
  induction samples generalizing rb with
  | nil => rfl
  | cons s rest ih =>
    rw [OptimizedRingBuffer.addBatch, List.foldl_cons]
    have ih2 := ih (rb.writeSample s)
    rw [OptimizedRingBuffer.addBatch] at ih2
    rw [ih2, writeSample_buffers_length]

theorem addBatch_lane_length (samples : List (Option (List ℚ))) (rb : OptimizedRingBuffer)
    (j : ℕ) :
    ((rb.addBatch samples).buffers.getD j []).length = (rb.buffers.getD j []).length := by
  induction samples generalizing rb with
  | nil => rfl
  | cons s rest ih =>
    rw [OptimizedRingBuffer.addBatch, List.foldl_cons]
    have ih2 := ih (rb.writeSample s)
    rw [OptimizedRingBuffer.addBatch] at ih2
    rw [ih2, writeSample_lane_length]

/-- C7: addBatch advances the single shared write cursor by exactly one
position modulo capacity per accepted sample, so the cursor always remains in
[0, capacity) and each per-channel lane keeps its fixed length; a sample
carrying fewer channel values than the lane count writes only the available
lanes, leaving every other lane's contents untouched and advancing (not
resetting) the cursor. -/
theorem addBatch_cursor_inv (rb : OptimizedRingBuffer) (samples : List (Option (List ℚ)))
    (hhead : rb.head < rb.capacity) :
    (rb.addBatch samples).head = (rb.head + countAccepted samples) % rb.capacity ∧
    (rb.addBatch samples).head < rb.capacity ∧
    (rb.addBatch samples).buffers.length = rb.buffers.length ∧
    (∀ j, ((rb.addBatch samples).buffers.getD j []).length = (rb.buffers.getD j []).length) ∧
    (∀ chans : List ℚ, (rb.writeSample (some chans)).head = (rb.head + 1) % rb.capacity) ∧
    (∀ chans : List ℚ, ∀ j, min rb.channelCount chans.length ≤ j →
      (rb.writeSample (some chans)).buffers.getD j [] = rb.buffers.getD j []) := by
  have hcap : 0 < rb.capacity := by omega
  refine ⟨addBatch_head samples rb hhead, ?_, addBatch_buffers_length samples rb,
    fun j => addBatch_lane_length samples rb j,
    fun chans => writeSample_head rb chans,
    fun chans j hj => writeSample_lane_untouched rb chans j hj⟩
  rw [addBatch_head samples rb hhead]
  exact Nat.mod_lt _ hcap

/-- Concrete buffer and batch for the C7 witness: two lanes of capacity 4,
one full sample and one partial sample carrying a single channel value. -/
def rbW : OptimizedRingBuffer := OptimizedRingBuffer.init 2 4

/-- Batch used by the C7 witness. -/
def samplesW : List (Option (List ℚ)) := [some [1, 2], some [3]]

/-- C7, witness at a concrete buffer and batch. -/
theorem addBatch_cursor_inv_witness :
    (rbW.addBatch samplesW).head = (rbW.head + countAccepted samplesW) % rbW.capacity ∧
    (rbW.addBatch samplesW).head < rbW.capacity ∧
    (rbW.addBatch samplesW).buffers.length = rbW.buffers.length ∧
    (∀ j, ((rbW.addBatch samplesW).buffers.getD j []).length
      = (rbW.buffers.getD j []).length) ∧
    (∀ chans : List ℚ, (rbW.writeSample (some chans)).head = (rbW.head + 1) % rbW.capacity) ∧
    (∀ chans : List ℚ, ∀ j, min rbW.channelCount chans.length ≤ j →
      (rbW.writeSample (some chans)).buffers.getD j [] = rbW.buffers.getD j []) :=
  addBatch_cursor_inv rbW samplesW (by decide)

/-! Wavefront render state (event-driven iteration of TimeDomainCanvas.vue).

State read and written by handleFrameUpdate and updateSingleSample: the
render surface handle wglp (false embeds a null WebglPlot), the per-channel
line buffers of DISPLAY_POINTS points, the shared cursor currentIndex, the
cached channel offsets and scale, the visibility array owned by the
surrounding application, and the derived waveFrontPosition ratio.  Line
colors are display-only attributes that never feed back into the Y data and
are not part of the embedded state. -/

structure WaveState where
  wglp : Bool
  channelLines : List (List ℚ)
  currentIndex : ℕ
  displayPoints : ℕ
  channelsCount : ℕ
  channelVisibility : List Bool
  cachedChannelOffsets : List ℚ
  cachedChannelScale : ℚ
  waveFrontPosition : ℚ

/-- calculateChannelOffset of TimeDomainCanvas.vue (identical in both
iterations): fallback 0 for at most one channel, otherwise
1 - (channelIndex + 0.5) * (2 / channelsCount). -/
def calculateChannelOffset (channelsCount channelIndex : ℕ) : ℚ :=
  if channelsCount ≤ 1 then 0
  else 1 - ((channelIndex : ℚ) + 1 / 2) * (2 / (channelsCount : ℚ))

/-- calculateChannelScale of TimeDomainCanvas.vue: fallback 0.4 for at most
one channel, otherwise ((2 / channelsCount) * 0.8) / 200 for the assumed
signal range [-100, 100]. -/
def calculateChannelScale (channelsCount : ℕ) : ℚ :=
  if channelsCount ≤ 1 then 2 / 5
  else ((2 / (channelsCount : ℚ)) * (4 / 5)) / 200

/-- Y value written by updateSingleSample for channel ch of one sample: the
baseline offset for an invisible channel, otherwise
offset + amplitude * scale with a missing amplitude reading as 0. -/
def sampleY (st : WaveState) (chans : List ℚ) (ch : ℕ) : ℚ :=
  if st.channelVisibility.getD ch false then
    st.cachedChannelOffsets.getD ch 0 + chans.getD ch 0 * st.cachedChannelScale
  else
    st.cachedChannelOffsets.getD ch 0

/-- updateSingleSample of the event-driven TimeDomainCanvas.vue: a falsy
sample (none) is skipped; otherwise every existing line of a channel below
channelsCount receives its Y value at the cursor, and the shared cursor
advances by one modulo displayPoints, once per sample and not per channel. -/
def updateSingleSample (st : WaveState) (sample : Option (List ℚ)) : WaveState :=
  match sample with
  | none => st
  | some chans =>
      { st with
        channelLines :=
          setLanesAux (sampleY st chans) st.currentIndex st.channelsCount 0 st.channelLines
        currentIndex := (st.currentIndex + 1) % st.displayPoints }

/-- handleFrameUpdate of the event-driven TimeDomainCanvas.vue: a no-op when
the render surface is gone or no lines were allocated, and also when the
payload carries no time_domain samples (none); otherwise it feeds every
sample to updateSingleSample and refreshes the wavefront ratio.  The embedded
function is total, matching the guarantee that a late batch never throws. -/
def handleFrameUpdate (st : WaveState) (payload : Option (List (Option (List ℚ)))) :
    WaveState :=
  if st.wglp = false ∨ st.channelLines.length = 0 then st
  else
    match payload with
    | none => st
    | some samples =>
        let st1 := samples.foldl updateSingleSample st
        { st1 with waveFrontPosition := (st1.currentIndex : ℚ) / (st1.displayPoints : ℚ) }

theorem updateSingleSample_fields (st : WaveState) (s : Option (List ℚ)) :
    (updateSingleSample st s).displayPoints = st.displayPoints ∧
    (updateSingleSample st s).channelsCount = st.channelsCount ∧
    (updateSingleSample st s).channelVisibility = st.channelVisibility ∧
    (updateSingleSample st s).cachedChannelOffsets = st.cachedChannelOffsets ∧
    (updateSingleSample st s).cachedChannelScale = st.cachedChannelScale := by
  cases s <;> exact ⟨rfl, rfl, rfl, rfl, rfl⟩

theorem updateSingleSample_currentIndex (st : WaveState) (chans : List ℚ) :
    (updateSingleSample st (some chans)).currentIndex
      = (st.currentIndex + 1) % st.displayPoints := rfl

theorem foldl_update_currentIndex (samples : List (List ℚ)) (st : WaveState)
    (hidx : st.currentIndex < st.displayPoints) :
    ((samples.map some).foldl updateSingleSample st).currentIndex
      = (st.currentIndex + samples.length) % st.displayPoints := by
  induction samples generalizing st with
  | nil => simp [Nat.mod_eq_of_lt hidx]
  | cons s rest ih =>
    have hD : 0 < st.displayPoints := by omega
    simp only [List.map_cons, List.foldl_cons, List.length_cons]
    have hidx1 : (updateSingleSample st (some s)).currentIndex
        < (updateSingleSample st (some s)).displayPoints := by
      rw [updateSingleSample_currentIndex, (updateSingleSample_fields st (some s)).1]
      exact Nat.mod_lt _ hD
    rw [ih (updateSingleSample st (some s)) hidx1, updateSingleSample_currentIndex,
      (updateSingleSample_fields st (some s)).1, Nat.mod_add_mod]
    congr 1
    omega

/-- C2: after handleFrameUpdate processes one batch of m samples, the shared
cursor equals (previousCursor + m) mod displayPoints, for every channel count
and every visibility state (neither appears among the hypotheses), and the
cursor is advanced per sample of the batch, never per channel. -/
theorem advance_cursor_batch (st : WaveState) (samples : List (List ℚ))
    (hw : st.wglp = true) (hl : st.channelLines.length ≠ 0)
    (hidx : st.currentIndex < st.displayPoints) :
    (handleFrameUpdate st (some (samples.map some))).currentIndex
      = (st.currentIndex + samples.length) % st.displayPoints := by
  have hguard : ¬ (st.wglp = false ∨ st.channelLines.length = 0) := by simp [hw, hl]
  unfold handleFrameUpdate
  rw [if_neg hguard]
  exact foldl_update_currentIndex samples st hidx

/-- Concrete wavefront state for witnesses: one visible channel, two display
points, cursor at 0. -/
def stT : WaveState :=
  { wglp := true
    channelLines := [[0, 0]]
    currentIndex := 0
    displayPoints := 2
    channelsCount := 1
    channelVisibility := [true]
    cachedChannelOffsets := [0]
    cachedChannelScale := 1
    waveFrontPosition := 0 }

/-- C2, witness at a concrete state and a one-sample batch. -/
theorem advance_cursor_batch_witness :
    (handleFrameUpdate stT (some ([[(3:ℚ)]].map some))).currentIndex
      = (stT.currentIndex + [[(3:ℚ)]].length) % stT.displayPoints :=
  advance_cursor_batch stT [[3]] (by decide) (by decide) (by decide)

/-- C8: when the render state is not initialized (no channel lines) or the
render surface is unavailable (wglp null), handleFrameUpdate on any
late-arriving payload returns the state unchanged; being a total function of
the embedding, it never throws. -/
theorem advance_noop_on_teardown (st : WaveState)
    (payload : Option (List (Option (List ℚ))))
    (h : st.wglp = false ∨ st.channelLines.length = 0) :
    handleFrameUpdate st payload = st := by
  unfold handleFrameUpdate
  rw [if_pos h]

/-- Concrete torn-down state for the C8 witness: render surface gone and no
lines allocated. -/
def stOff : WaveState :=
  { wglp := false
    channelLines := []
    currentIndex := 0
    displayPoints := 2
    channelsCount := 1
    channelVisibility := [true]
    cachedChannelOffsets := [0]
    cachedChannelScale := 1
    waveFrontPosition := 0 }

/-- C8, witness: a late payload on the torn-down state is dropped. -/
theorem advance_noop_on_teardown_witness :
    handleFrameUpdate stOff (some [some [5]]) = stOff :=
  advance_noop_on_teardown stOff (some [some [5]]) (Or.inl rfl)

theorem foldl_update_hidden_lane (samples : List (List ℚ)) (st : WaveState) (ch : ℕ)
    (hvis : st.channelVisibility.getD ch false = false)
    (hch : ch < st.channelsCount)
    (hidx : st.currentIndex < st.displayPoints) :
    ∀ p, (((samples.map some).foldl updateSingleSample st).channelLines.getD ch []).getD p 0
      = if (∃ i < samples.length, (st.currentIndex + i) % st.displayPoints = p)
            ∧ p < (st.channelLines.getD ch []).length
        then st.cachedChannelOffsets.getD ch 0
        else (st.channelLines.getD ch []).getD p 0 := by
  induction samples generalizing st with
  | nil =>
    intro p
    rw [if_neg]
    · rfl
    · rintro ⟨⟨i, hi, -⟩, -⟩
      simp at hi
  | cons s rest ih =>
    intro p
    have hD : 0 < st.displayPoints := by omega
    have hfields := updateSingleSample_fields st (some s)
    have hidx1 : (updateSingleSample st (some s)).currentIndex
        < (updateSingleSample st (some s)).displayPoints := by
      rw [updateSingleSample_currentIndex, hfields.1]
      exact Nat.mod_lt _ hD
    have hvis1 : (updateSingleSample st (some s)).channelVisibility.getD ch false = false := by
      rw [hfields.2.2.1]; exact hvis
    have hch1 : ch < (updateSingleSample st (some s)).channelsCount := by
      rw [hfields.2.1]; exact hch
    have hIH := ih (updateSingleSample st (some s)) hvis1 hch1 hidx1 p
    simp only [List.map_cons, List.foldl_cons, List.length_cons]
    rw [hIH, updateSingleSample_currentIndex, hfields.1, hfields.2.2.2.1]
    by_cases hchlen : ch < st.channelLines.length
    · have hlane1 : (updateSingleSample st (some s)).channelLines.getD ch []
          = (st.channelLines.getD ch []).set st.currentIndex
              (st.cachedChannelOffsets.getD ch 0) := by
        simp only [updateSingleSample]
        rw [setLanesAux_getD, if_pos hchlen, if_pos (by omega : 0 + ch < st.channelsCount)]
        simp only [Nat.zero_add, sampleY, hvis, Bool.false_eq_true, if_false]
      rw [hlane1, List.length_set]
      simp only [Nat.mod_add_mod]
      by_cases hplen : p < (st.channelLines.getD ch []).length
      · by_cases hshift : ∃ i < rest.length, (st.currentIndex + 1 + i) % st.displayPoints = p
        · have hc2 : (∃ i < rest.length + 1, (st.currentIndex + i) % st.displayPoints = p)
              ∧ p < (st.channelLines.getD ch []).length := by
            refine ⟨?_, hplen⟩
            obtain ⟨i, hi, hieq⟩ := hshift
            refine ⟨i + 1, by omega, ?_⟩
            rw [show st.currentIndex + (i + 1) = st.currentIndex + 1 + i from by omega]
            exact hieq
          rw [if_pos ⟨hshift, hplen⟩, if_pos hc2]
        · by_cases hpidx : p = st.currentIndex
          · have hc2 : (∃ i < rest.length + 1, (st.currentIndex + i) % st.displayPoints = p)
                ∧ p < (st.channelLines.getD ch []).length := by
              refine ⟨⟨0, by omega, ?_⟩, hplen⟩
              rw [Nat.add_zero, Nat.mod_eq_of_lt hidx]
              exact hpidx.symm
            rw [if_neg (fun hcon => hshift hcon.1), if_pos hc2]
            subst hpidx
            exact getD_set_self _ _ _ hplen
          · have hc2 : ¬ ((∃ i < rest.length + 1, (st.currentIndex + i) % st.displayPoints = p)
                ∧ p < (st.channelLines.getD ch []).length) := by
              rintro ⟨⟨i, hi, hieq⟩, -⟩
              cases i with
              | zero =>
                rw [Nat.add_zero, Nat.mod_eq_of_lt hidx] at hieq
                exact hpidx hieq.symm
              | succ i2 =>
                refine hshift ⟨i2, by omega, ?_⟩
                rw [show st.currentIndex + 1 + i2 = st.currentIndex + (i2 + 1) from by omega]
                exact hieq
            rw [if_neg (fun hcon => hshift hcon.1), if_neg hc2]
            exact getD_set_ne _ _ _ _ (fun he => hpidx he.symm)
      · rw [if_neg (fun hcon => hplen hcon.2), if_neg (fun hcon => hplen hcon.2)]
        rw [List.getD_eq_default _ _ (by rw [List.length_set]; omega),
          List.getD_eq_default _ _ (by omega)]
    · have hlane1 : (updateSingleSample st (some s)).channelLines.getD ch [] = ([] : List ℚ) := by
        simp only [updateSingleSample]
        rw [setLanesAux_getD, if_neg hchlen]
      have hlane0 : st.channelLines.getD ch [] = ([] : List ℚ) :=
        List.getD_eq_default _ _ (Nat.le_of_not_lt hchlen)
      rw [hlane1, hlane0]
      simp

/-- C3: during handleFrameUpdate on a batch, every display-buffer position
written for a channel marked invisible receives that channel's fixed baseline
offset (never a sample-derived value), and every position outside the written
wavefront region keeps its previous value. -/
theorem hidden_channel_baseline (st : WaveState) (samples : List (List ℚ)) (ch : ℕ)
    (hw : st.wglp = true) (hl : st.channelLines.length ≠ 0)
    (hvis : st.channelVisibility.getD ch false = false)
    (hch : ch < st.channelsCount)
    (hidx : st.currentIndex < st.displayPoints) :
    ∀ p, ((handleFrameUpdate st (some (samples.map some))).channelLines.getD ch []).getD p 0
      = if (∃ i < samples.length, (st.currentIndex + i) % st.displayPoints = p)
            ∧ p < (st.channelLines.getD ch []).length
        then st.cachedChannelOffsets.getD ch 0
        else (st.channelLines.getD ch []).getD p 0 := by
  intro p
  have hguard : ¬ (st.wglp = false ∨ st.channelLines.length = 0) := by simp [hw, hl]
  unfold handleFrameUpdate
  rw [if_neg hguard]
  exact foldl_update_hidden_lane samples st ch hvis hch hidx p

/-- Concrete state for the C3 witness: a single invisible channel with
baseline offset 1/2 and two display points. -/
def stHid : WaveState :=
  { wglp := true
    channelLines := [[0, 0]]
    currentIndex := 0
    displayPoints := 2
    channelsCount := 1
    channelVisibility := [false]
    cachedChannelOffsets := [1 / 2]
    cachedChannelScale := 1
    waveFrontPosition := 0 }

/-- C3, witness: the wavefront position written for the hidden channel holds
the baseline 1/2, not the incoming amplitude 9. -/
theorem hidden_channel_baseline_witness :
    ((handleFrameUpdate stHid (some ([[(9:ℚ)]].map some))).channelLines.getD 0 []).getD 0 0
      = (1 : ℚ) / 2 := by
  have h := hidden_channel_baseline stHid [[9]] 0 rfl (by decide) (by decide) (by decide)
    (by decide) 0
  rw [h, if_pos ⟨⟨0, by decide, by decide⟩, by decide⟩]
  rfl

/-! Frequency-domain spectrum renderer (FrequencyDomainCanvas.vue).

updateSpectrumDirect walks the entries of one frequency-update message.  An
entry whose channel index reaches beyond the allocated lines or beyond the
channel count is skipped; an invisible channel's line is reset to its
baseline; a visible channel's line receives, for each of the FREQ_BINS
points, offset + clamp(spectrum[i] / MAX_AMPLITUDE, 0, 1) * scale, with
source bins beyond FREQ_BINS ignored and missing bins drawn with magnitude
0.  Line colors are display-only attributes and are not part of the state. -/

def FREQ_BINS : ℕ := 50

def MAX_AMPLITUDE : ℚ := 100

/-- One record of the frequency-update message (interface FreqData). -/
structure FreqEntry where
  channel_index : ℕ
  spectrum : List ℚ
  frequency_bins : List ℚ

/-- State read and written by updateSpectrumDirect: the per-channel spectrum
lines and the channel count and visibility owned by the application. -/
structure FreqState where
  channelLines : List (List ℚ)
  channelsCount : ℕ
  channelVisibility : List Bool

/-- Reading back an in-range write to a lane list. -/
theorem getD_set_self_lane (l : List (List ℚ)) (i : ℕ) (v : List ℚ) (h : i < l.length) :
    (l.set i v).getD i [] = v := by
  rw [List.getD_eq_getElem _ _ (by simpa using h), List.getElem_set]
  simp

/-- Writing one lane of a lane list leaves every other lane unchanged. -/
theorem getD_set_ne_lane (l : List (List ℚ)) (i j : ℕ) (v : List ℚ) (h : i ≠ j) :
    (l.set i v).getD j [] = l.getD j [] := by
  rw [List.getD_eq_getElem?_getD, List.getD_eq_getElem?_getD, List.getElem?_set]
  simp [h]

/-- Effect of a single set on an arbitrary position, in one formula. -/
theorem getD_set_full (l : List ℚ) (i j : ℕ) (v : ℚ) :
    (l.set i v).getD j 0 = if i = j ∧ i < l.length then v else l.getD j 0 := by
  by_cases h1 : i = j
  · subst h1
    by_cases h2 : i < l.length
    · rw [getD_set_self _ _ _ h2, if_pos ⟨rfl, h2⟩]
    · rw [if_neg (fun hc => h2 hc.2)]
      rw [List.getD_eq_getElem?_getD, List.getD_eq_getElem?_getD, List.getElem?_set]
      rw [List.getElem?_eq_none (show l.length ≤ i by omega)]
      simp [h2]
  · rw [getD_set_ne _ _ _ _ h1, if_neg (fun hc => h1 hc.1)]

theorem foldl_set_range_length (f : ℕ → ℚ) (N : ℕ) (lane : List ℚ) :
    ((List.range N).foldl (fun l i => l.set i (f i)) lane).length = lane.length := by
  induction N with
  | zero => rfl
  | succ n ih =>
    rw [List.range_succ, List.foldl_append, List.foldl_cons, List.foldl_nil,
      List.length_set, ih]

theorem foldl_set_range_getD (f : ℕ → ℚ) (N : ℕ) (lane : List ℚ) (j : ℕ) :
    ((List.range N).foldl (fun l i => l.set i (f i)) lane).getD j 0
      = if j < N ∧ j < lane.length then f j else lane.getD j 0 := by
  induction N with
  | zero =>
    rw [if_neg]
    · rfl
    · rintro ⟨hj, -⟩
      omega
  | succ n ih =>
    rw [List.range_succ, List.foldl_append, List.foldl_cons, List.foldl_nil]
    rw [getD_set_full, foldl_set_range_length, ih]
    by_cases hnj : n = j
    · subst hnj
      by_cases hlen : n < lane.length
      · rw [if_pos ⟨rfl, hlen⟩, if_pos ⟨by omega, hlen⟩]
      · rw [if_neg (fun hc => hlen hc.2), if_neg (fun hc => by omega),
          if_neg (fun hc => hlen hc.2)]
    · rw [if_neg (fun hc => hnj hc.1)]
      by_cases hc : j < n ∧ j < lane.length
      · rw [if_pos hc, if_pos ⟨by omega, hc.2⟩]
      · rw [if_neg hc, if_neg (fun hc2 => hc ⟨by omega, hc2.2⟩)]

namespace FrequencyDomain

/-- calculateChannelOffset of FrequencyDomainCanvas.vue: fallback 0 for at
most one channel, otherwise 1 - (channelIndex + 0.5) * (2 / channelsCount),
the same band mapping as the time-domain canvas. -/
def calculateChannelOffset (channelsCount channelIndex : ℕ) : ℚ :=
  if channelsCount ≤ 1 then 0
  else 1 - ((channelIndex : ℚ) + 1 / 2) * (2 / (channelsCount : ℚ))

/-- calculateChannelScale of FrequencyDomainCanvas.vue: fallback 0.8 for at
most one channel, otherwise ((2 / channelsCount) * 0.8) / 2. -/
def calculateChannelScale (channelsCount : ℕ) : ℚ :=
  if channelsCount ≤ 1 then 4 / 5
  else ((2 / (channelsCount : ℚ)) * (4 / 5)) / 2

/-- Y value of bin i for a visible channel in updateSpectrumDirect: magnitude
is spectrum[i] / MAX_AMPLITUDE clamped by Math.min 1 then Math.max 0 when
i < min(spectrum.length, FREQ_BINS), and 0 otherwise. -/
def binValue (spectrum : List ℚ) (off scale : ℚ) (i : ℕ) : ℚ :=
  off + (if i < min spectrum.length FREQ_BINS
         then max (min (spectrum.getD i 0 / MAX_AMPLITUDE) 1) 0 else 0) * scale

/-- Loop writing all FREQ_BINS points of one line. -/
def setBins (lane : List ℚ) (f : ℕ → ℚ) : List ℚ :=
  (List.range FREQ_BINS).foldl (fun l i => l.set i (f i)) lane

/-- Body of the updateSpectrumDirect loop for one entry: skip when
channel_index reaches beyond the allocated lines or the channel count; write
the baseline over all FREQ_BINS points when the channel is invisible;
otherwise write the clamped spectrum points. -/
def applyEntry (st : FreqState) (e : FreqEntry) : FreqState :=
  if st.channelLines.length ≤ e.channel_index ∨ st.channelsCount ≤ e.channel_index then st
  else
    let off := calculateChannelOffset st.channelsCount e.channel_index
    let lane := st.channelLines.getD e.channel_index []
    let lane2 :=
      if st.channelVisibility.getD e.channel_index false = false then
        setBins lane (fun _ => off)
      else
        setBins lane (binValue e.spectrum off (calculateChannelScale st.channelsCount))
    { st with channelLines := st.channelLines.set e.channel_index lane2 }

/-- updateSpectrumDirect of FrequencyDomainCanvas.vue: fold applyEntry over
the entries of one message, in message order. -/
def updateSpectrumDirect (st : FreqState) (entries : List FreqEntry) : FreqState :=
  entries.foldl applyEntry st

end FrequencyDomain

theorem setBins_eq_map (lane : List ℚ) (f : ℕ → ℚ) (hlen : lane.length = FREQ_BINS) :
    FrequencyDomain.setBins lane f = (List.range FREQ_BINS).map f := by
  apply List.ext_getElem
  · rw [FrequencyDomain.setBins, foldl_set_range_length, hlen, List.length_map,
      List.length_range]
  · intro i h1 h2
    have hi : i < FREQ_BINS := by
      rw [FrequencyDomain.setBins, foldl_set_range_length, hlen] at h1
      exact h1
    rw [← List.getD_eq_getElem _ 0 h1, ← List.getD_eq_getElem _ 0 h2]
    rw [FrequencyDomain.setBins, foldl_set_range_getD, if_pos ⟨hi, by omega⟩]
    rw [List.getD_eq_getElem _ _ (by simpa using hi), List.getElem_map, List.getElem_range]

theorem applyEntry_fields (st : FreqState) (e : FreqEntry) :
    (FrequencyDomain.applyEntry st e).channelsCount = st.channelsCount ∧
    (FrequencyDomain.applyEntry st e).channelVisibility = st.channelVisibility ∧
    (FrequencyDomain.applyEntry st e).channelLines.length = st.channelLines.length := by
  unfold FrequencyDomain.applyEntry
  split
  · exact ⟨rfl, rfl, rfl⟩
  · exact ⟨rfl, rfl, List.length_set _ _ _⟩

theorem applyEntry_other_lane (st : FreqState) (e : FreqEntry) (ch : ℕ)
    (hne : e.channel_index ≠ ch) :
    (FrequencyDomain.applyEntry st e).channelLines.getD ch []
      = st.channelLines.getD ch [] := by
  unfold FrequencyDomain.applyEntry
  split
  · rfl
  · exact getD_set_ne_lane _ _ _ _ hne

/-- C4 (amended): for every entry whose channel index is within the allocated
lines and the channel count and whose channel is visible, applyEntry writes
exactly FREQ_BINS points into that channel's band: point i carries
offset + clamp(spectrum[i] / MAX_AMPLITUDE, 0, 1) * scale when i lies below
min(spectrum.length, FREQ_BINS), bins of the source beyond FREQ_BINS are
ignored, and any shortfall is written with magnitude 0, which is the channel
baseline. -/
theorem applyEntry_visible (st : FreqState) (e : FreqEntry)
    (hr1 : e.channel_index < st.channelLines.length)
    (hr2 : e.channel_index < st.channelsCount)
    (hvis : st.channelVisibility.getD e.channel_index false = true)
    (hlane : (st.channelLines.getD e.channel_index []).length = FREQ_BINS) :
    (FrequencyDomain.applyEntry st e).channelLines.getD e.channel_index []
      = (List.range FREQ_BINS).map (fun i =>
          FrequencyDomain.calculateChannelOffset st.channelsCount e.channel_index
            + (if i < min e.spectrum.length FREQ_BINS
               then max (min (e.spectrum.getD i 0 / MAX_AMPLITUDE) 1) 0 else 0)
              * FrequencyDomain.calculateChannelScale st.channelsCount) := by
  unfold FrequencyDomain.applyEntry
  rw [if_neg (by omega)]
  dsimp only
  rw [getD_set_self_lane _ _ _ hr1, if_neg (by rw [hvis]; exact fun hc => by cases hc)]
  rw [setBins_eq_map _ _ hlane]
  rfl

/-- Concrete spectrum state for C4 and C5: two channels of 50 bins, channel 0
invisible and channel 1 visible. -/
def stF : FreqState :=
  { channelLines := [List.replicate 50 0, List.replicate 50 0]
    channelsCount := 2
    channelVisibility := [false, true] }

/-- Entry aimed at the invisible channel 0 with a saturating magnitude. -/
def eF : FreqEntry := { channel_index := 0, spectrum := [100], frequency_bins := [1] }

/-- C4, counterexample to the claim as stated: the claim quantifies over
every entry of the message, but for an entry whose channel is invisible
applyEntry writes the baseline offset, not
offset + clamp(spectrum[0] / MAX_AMPLITUDE, 0, 1) * scale. -/
theorem applyEntry_cex :
    ((FrequencyDomain.applyEntry stF eF).channelLines.getD 0 []).getD 0 0
      ≠ FrequencyDomain.calculateChannelOffset stF.channelsCount 0
          + max (min (eF.spectrum.getD 0 0 / MAX_AMPLITUDE) 1) 0
            * FrequencyDomain.calculateChannelScale stF.channelsCount := by
  have hLHS : ((FrequencyDomain.applyEntry stF eF).channelLines.getD 0 []).getD 0 0
      = FrequencyDomain.calculateChannelOffset 2 0 := by
    unfold FrequencyDomain.applyEntry
    rw [if_neg (by decide)]
    dsimp only
    rw [show eF.channel_index = 0 from rfl]
    rw [getD_set_self_lane _ _ _ (by decide), if_pos (by decide)]
    rw [FrequencyDomain.setBins, foldl_set_range_getD, if_pos (by decide)]
    rfl
  rw [hLHS]
  show FrequencyDomain.calculateChannelOffset 2 0 ≠ _
  unfold FrequencyDomain.calculateChannelOffset FrequencyDomain.calculateChannelScale
    MAX_AMPLITUDE
  simp only [stF, eF]
  norm_num [min_def, max_def]

/-- Entry aimed at the visible channel 1, used by the C4 witness. -/
def eFvis : FreqEntry := { channel_index := 1, spectrum := [50], frequency_bins := [1] }

/-- C4, witness at a visible in-range entry. -/
theorem applyEntry_visible_witness :
    (FrequencyDomain.applyEntry stF eFvis).channelLines.getD 1 []
      = (List.range FREQ_BINS).map (fun i =>
          FrequencyDomain.calculateChannelOffset stF.channelsCount 1
            + (if i < min eFvis.spectrum.length FREQ_BINS
               then max (min (eFvis.spectrum.getD i 0 / MAX_AMPLITUDE) 1) 0 else 0)
              * FrequencyDomain.calculateChannelScale stF.channelsCount) :=
  applyEntry_visible stF eFvis (by decide) (by decide) (by decide) (by decide)

/-- C5: a channel whose index appears in no entry of the message keeps every
drawn spectrum point unchanged after updateSpectrumDirect; it is frozen at
its last-drawn state rather than reset to the baseline. -/
theorem absent_channel_frozen (st : FreqState) (entries : List FreqEntry) (ch : ℕ)
    (habs : ∀ e ∈ entries, e.channel_index ≠ ch) :
    (FrequencyDomain.updateSpectrumDirect st entries).channelLines.getD ch []
      = st.channelLines.getD ch [] := by
  induction entries generalizing st with
  | nil => rfl
  | cons e rest ih =>
    rw [FrequencyDomain.updateSpectrumDirect, List.foldl_cons]
    have ih2 := ih (FrequencyDomain.applyEntry st e)
      (fun x hx => habs x (List.mem_cons_of_mem _ hx))
    rw [FrequencyDomain.updateSpectrumDirect] at ih2
    rw [ih2]
    exact applyEntry_other_lane st e ch (habs e (List.mem_cons_self _ _))

/-- C5, witness: a message updating only channel 1 leaves channel 0 frozen. -/
theorem absent_channel_frozen_witness :
    (FrequencyDomain.updateSpectrumDirect stF [eFvis]).channelLines.getD 0 []
      = stF.channelLines.getD 0 [] :=
  absent_channel_frozen stF [eFvis] 0 (by decide)

theorem updateSpectrumDirect_fields (entries : List FreqEntry) (st : FreqState) :
    (FrequencyDomain.updateSpectrumDirect st entries).channelsCount = st.channelsCount ∧
    (FrequencyDomain.updateSpectrumDirect st entries).channelLines.length
      = st.channelLines.length := by
  induction entries generalizing st with
  | nil => exact ⟨rfl, rfl⟩
  | cons e rest ih =>
    rw [FrequencyDomain.updateSpectrumDirect, List.foldl_cons]
    have ih2 := ih (FrequencyDomain.applyEntry st e)
    rw [FrequencyDomain.updateSpectrumDirect] at ih2
    have hf := applyEntry_fields st e
    exact ⟨ih2.1.trans hf.1, ih2.2.trans hf.2.2⟩

/-- C9: an entry whose channel_index reaches beyond the allocated channel
lines or beyond channelsCount is skipped by applyEntry without modifying any
line, and removing such an entry from anywhere inside a message leaves the
result of updateSpectrumDirect unchanged, with the other entries in any
order; the embedded functions are total, so no exception is possible. -/
theorem out_of_range_entry_skipped (st : FreqState) (e : FreqEntry)
    (entries1 entries2 : List FreqEntry)
    (h : st.channelLines.length ≤ e.channel_index ∨ st.channelsCount ≤ e.channel_index) :
    FrequencyDomain.applyEntry st e = st ∧
    FrequencyDomain.updateSpectrumDirect st (entries1 ++ e :: entries2)
      = FrequencyDomain.updateSpectrumDirect st (entries1 ++ entries2) := by
  have hskip : ∀ st2 : FreqState, st2.channelLines.length = st.channelLines.length →
      st2.channelsCount = st.channelsCount → FrequencyDomain.applyEntry st2 e = st2 := by
    intro st2 h1 h2
    unfold FrequencyDomain.applyEntry
    rw [if_pos (by rw [h1, h2]; exact h)]
  refine ⟨hskip st rfl rfl, ?_⟩
  rw [FrequencyDomain.updateSpectrumDirect, FrequencyDomain.updateSpectrumDirect,
    List.foldl_append, List.foldl_append, List.foldl_cons]
  congr 1
  exact hskip (FrequencyDomain.updateSpectrumDirect st entries1)
    (updateSpectrumDirect_fields entries1 st).2 (updateSpectrumDirect_fields entries1 st).1

/-- Entry aimed far beyond the two allocated channels, for the C9 witness. -/
def eOut : FreqEntry := { channel_index := 5, spectrum := [1], frequency_bins := [1] }

/-- C9, witness: the out-of-range entry is dropped from a one-entry message. -/
theorem out_of_range_entry_skipped_witness :
    FrequencyDomain.applyEntry stF eOut = stF ∧
    FrequencyDomain.updateSpectrumDirect stF ([] ++ eOut :: [])
      = FrequencyDomain.updateSpectrumDirect stF ([] ++ []) :=
  out_of_range_entry_skipped stF eOut [] [] (by decide)

/-- C6: for two or more channels the vertical offset of channel ch is
1 - (ch + 0.5) * (2 / channelsCount) in both canvases and the time-domain
amplitude scale is ((2 / channelsCount) * 0.8) / 200 for the assumed signal
range [-100, 100]; for the degenerate channel counts 0 and 1 both functions
return the explicit fallback constants 0 and 0.4 (the single channel keeping
the whole vertical band), and no division by zero is ever evaluated. -/
theorem channel_mapping (count ch : ℕ) (h2 : 2 ≤ count) :
    calculateChannelOffset count ch = 1 - ((ch : ℚ) + 1 / 2) * (2 / (count : ℚ)) ∧
    calculateChannelScale count = ((2 / (count : ℚ)) * (4 / 5)) / 200 ∧
    FrequencyDomain.calculateChannelOffset count ch
      = 1 - ((ch : ℚ) + 1 / 2) * (2 / (count : ℚ)) ∧
    calculateChannelOffset 0 ch = 0 ∧
    calculateChannelScale 0 = 2 / 5 ∧
    calculateChannelOffset 1 ch = 0 ∧
    calculateChannelScale 1 = 2 / 5 := by
  refine ⟨?_, ?_, ?_, rfl, rfl, rfl, rfl⟩
  · unfold calculateChannelOffset
    rw [if_neg (by omega)]
  · unfold calculateChannelScale
    rw [if_neg (by omega)]
  · unfold FrequencyDomain.calculateChannelOffset
    rw [if_neg (by omega)]

/-- C6, witness at two channels, channel 0. -/
theorem channel_mapping_witness :
    calculateChannelOffset 2 0 = 1 - ((0 : ℚ) + 1 / 2) * (2 / (2 : ℚ)) ∧
    calculateChannelScale 2 = ((2 / (2 : ℚ)) * (4 / 5)) / 200 ∧
    FrequencyDomain.calculateChannelOffset 2 0
      = 1 - ((0 : ℚ) + 1 / 2) * (2 / (2 : ℚ)) ∧
    calculateChannelOffset 0 0 = 0 ∧
    calculateChannelScale 0 = 2 / 5 ∧
    calculateChannelOffset 1 0 = 0 ∧
    calculateChannelScale 1 = 2 / 5 :=
  channel_mapping 2 0 (by omega)

/-! FFT worker (public/fft-worker.js).

The constructor first computes Math.log2(size) and throws when it is not an
integer.  For the integer sizes in scope (below 2^33) the double-precision
log2 is an integer exactly when size is a power of two, which pow2Below
decides by search; a power of two 2^k satisfies k < 2^k, so searching
exponents up to size is exhaustive.  The constructor then allocates
new Array(size / 2) for the twiddle factors; a JavaScript array length must
be an integer below 2^32, so size = 1 (length 0.5) and size >= 2^33 throw a
RangeError.  Both failure modes are embedded as Except.error with the
corresponding message. -/

def pow2Below (size : ℕ) : Bool :=
  (List.range (size + 1)).any (fun k => size == 2 ^ k)

/-- State of a successfully constructed FFT object: its size and the length
of the precomputed twiddle-factor array this.w. -/
structure FFT where
  size : ℕ
  wLength : ℕ

/-- Constructor of class FFT in fft-worker.js. -/
def FFT.construct (size : ℕ) : Except String FFT :=
  if pow2Below size = false then Except.error "FFT size must be a power of 2"
  else if size % 2 ≠ 0 then Except.error "Invalid array length"
  else if 2 ^ 32 ≤ size / 2 then Except.error "Invalid array length"
  else Except.ok { size := size, wLength := size / 2 }

theorem pow2Below_iff (size : ℕ) : pow2Below size = true ↔ ∃ k, size = 2 ^ k := by
  unfold pow2Below
  rw [List.any_eq_true]
  constructor
  · rintro ⟨k, -, hbeq⟩
    exact ⟨k, by simpa using hbeq⟩
  · rintro ⟨k, hk⟩
    have hlt : k < 2 ^ k := Nat.lt_two_pow k
    exact ⟨k, List.mem_range.mpr (by omega), by simp [hk]⟩

/-- C10 (amended): the FFT constructor succeeds exactly for the power-of-two
sizes whose twiddle array is allocatable, that is, 2 <= size = 2^k with
size / 2 below the array-length bound 2^32; every other size throws, and on
success size / 2 twiddle factors are allocated.  In particular the exact
power of two size = 1 throws. -/
theorem fft_construct_characterization (size : ℕ) :
    ((FFT.construct size).isOk = true ↔
      (∃ k, size = 2 ^ k) ∧ 2 ≤ size ∧ size / 2 < 2 ^ 32) ∧
    ∀ fs, FFT.construct size = Except.ok fs → fs.size = size ∧ fs.wLength = size / 2 := by
  constructor
  · constructor
    · intro hok
      unfold FFT.construct at hok
      by_cases h1 : pow2Below size = false
      · rw [if_pos h1] at hok; simp [Except.isOk, Except.toBool] at hok
      · rw [if_neg h1] at hok
        have h1t : pow2Below size = true := by
          revert h1; cases pow2Below size <;> simp
        have hp2 : ∃ k, size = 2 ^ k := (pow2Below_iff size).mp h1t
        by_cases h2 : size % 2 ≠ 0
        · rw [if_pos h2] at hok; simp [Except.isOk, Except.toBool] at hok
        · rw [if_neg h2] at hok
          by_cases h3 : 2 ^ 32 ≤ size / 2
          · rw [if_pos h3] at hok; simp [Except.isOk, Except.toBool] at hok
          · have hone : 1 ≤ size := by
              obtain ⟨k, hk⟩ := hp2
              have hpos : 0 < 2 ^ k := Nat.pos_pow_of_pos k (by omega)
              omega
            exact ⟨hp2, by omega, by omega⟩
    · rintro ⟨⟨k, hk⟩, h2, h3⟩
      unfold FFT.construct
      have h1t : pow2Below size = true := (pow2Below_iff size).mpr ⟨k, hk⟩
      have heven : size % 2 = 0 := by
        rcases k with _ | k2
        · norm_num at hk
          omega
        · rw [hk, pow_succ]
          exact Nat.mul_mod_left _ 2
      rw [if_neg (by simp [h1t]), if_neg (by omega), if_neg (by omega)]
      rfl
  · intro fs hfs
    unfold FFT.construct at hfs
    by_cases h1 : pow2Below size = false
    · rw [if_pos h1] at hfs; exact absurd hfs (by simp)
    · rw [if_neg h1] at hfs
      by_cases h2 : size % 2 ≠ 0
      · rw [if_pos h2] at hfs; exact absurd hfs (by simp)
      · rw [if_neg h2] at hfs
        by_cases h3 : 2 ^ 32 ≤ size / 2
        · rw [if_pos h3] at hfs; exact absurd hfs (by simp)
        · rw [if_neg h3] at hfs
          cases hfs
          exact ⟨rfl, rfl⟩

/-- C10, counterexample to the claim as stated: 1 = 2^0 is a power of two,
yet the constructor throws, because new Array(1 / 2) is not a valid array
allocation. -/
theorem fft_construct_size_one_cex :
    (FFT.construct 1).isOk = false ∧ (1 : ℕ) = 2 ^ 0 := by
  constructor
  · decide
  · rfl

/-- C10, witness: size 4 constructs successfully. -/
theorem fft_construct_characterization_witness :
    (FFT.construct 4).isOk = true :=
  (fft_construct_characterization 4).1.mpr ⟨⟨2, rfl⟩, by omega, by decide⟩
